import Mathlib

/-!
Verification of the two numerical procedures in the CPT-Snippets repository:
the masked periodic 2-D Laplacian of `LaplacianHack.ipynb` and the spectral
filter-weight designer of `FilterWeights.ipynb`.

The Python arrays are embedded as functions from natural-number indices into a
field (the claims are stated over `ℝ`; concrete evaluations instantiate the
generic definitions at `ℚ` so that the kernel can compute them).  Machine
floating point is modelled by exact field arithmetic.
-/

/-! ### Masked, periodic 2-D Laplacian (`LaplacianHack.ipynb`, `Laplacian2D`)

The source works on `(Nx, Ny)`-shaped numpy arrays; `field i j` is the entry
`field[i, j]`.  Each numpy slice assignment becomes a case split on the index:
the slice `[:, 0:Ny-1]` covers the indices `j < Ny - 1`, and the subsequent
assignment to `[:, Ny-1]` covers `j = Ny - 1`; similarly in the first axis.
-/

/-- `notLand = 1 - landMask` (line `notLand = 1 - landMask` of `Laplacian2D`). -/
def notLand {α : Type} [Field α] (landMask : ℕ → ℕ → α) (i j : ℕ) : α :=
  1 - landMask i j

/-- The y-direction forward flux of `Laplacian2D`:
`fluxRight[:,0:Ny-1] = notLand[:,1:Ny]*(field[:,1:Ny] - field[:,0:Ny-1])` and
`fluxRight[:,Ny-1] = notLand[:,0]*(field[:,0]-field[:,Ny-1])`. -/
def fluxRightY {α : Type} [Field α] (Ny : ℕ) (field landMask : ℕ → ℕ → α)
    (i j : ℕ) : α :=
  if j < Ny - 1 then notLand landMask i (j + 1) * (field i (j + 1) - field i j)
  else notLand landMask i 0 * (field i 0 - field i (Ny - 1))

/-- The y-direction backward flux of `Laplacian2D`:
`fluxLeft[:,1:Ny] = notLand[:,0:Ny-1]*(field[:,1:Ny] - field[:,0:Ny-1])` and
`fluxLeft[:,0] = notLand[:,Ny-1]*(field[:,0]-field[:,Ny-1])`. -/
def fluxLeftY {α : Type} [Field α] (Ny : ℕ) (field landMask : ℕ → ℕ → α)
    (i j : ℕ) : α :=
  if j = 0 then notLand landMask i (Ny - 1) * (field i 0 - field i (Ny - 1))
  else notLand landMask i (j - 1) * (field i j - field i (j - 1))

/-- The x-direction forward flux of `Laplacian2D`:
`fluxRight[0:Nx-1,:] = notLand[1:Nx,:]*(field[1:Nx,:] - field[0:Nx-1,:])` and
`fluxRight[Nx-1,:] = notLand[0,:]*(field[0,:]-field[Nx-1,:])`. -/
def fluxRightX {α : Type} [Field α] (Nx : ℕ) (field landMask : ℕ → ℕ → α)
    (i j : ℕ) : α :=
  if i < Nx - 1 then notLand landMask (i + 1) j * (field (i + 1) j - field i j)
  else notLand landMask 0 j * (field 0 j - field (Nx - 1) j)

/-- The x-direction backward flux of `Laplacian2D`:
`fluxLeft[1:Nx,:] = notLand[0:Nx-1,:]*(field[1:Nx,:] - field[0:Nx-1,:])` and
`fluxLeft[0,:] = notLand[Nx-1,:]*(field[0,:]-field[Nx-1,:])`. -/
def fluxLeftX {α : Type} [Field α] (Nx : ℕ) (field landMask : ℕ → ℕ → α)
    (i j : ℕ) : α :=
  if i = 0 then notLand landMask (Nx - 1) j * (field 0 j - field (Nx - 1) j)
  else notLand landMask (i - 1) j * (field i j - field (i - 1) j)

/-- The accumulated array `OUT` of `Laplacian2D` just before the `return`:
`OUT = (1/dy**2)*(fluxRight - fluxLeft)` from the y-block, plus
`(1/dx**2)*(fluxRight - fluxLeft)` from the x-block, where the length-`Ny`
array `dx` broadcasts along the second index. -/
def OUTpre {α : Type} [Field α] (Nx Ny : ℕ) (field landMask : ℕ → ℕ → α)
    (dx : ℕ → α) (dy : α) (i j : ℕ) : α :=
  (1 / dy ^ 2) * (fluxRightY Ny field landMask i j - fluxLeftY Ny field landMask i j)
    + (1 / dx j ^ 2) * (fluxRightX Nx field landMask i j - fluxLeftX Nx field landMask i j)

/-- `Laplacian2D(field, landMask, dx, dy)` from `LaplacianHack.ipynb`.
The function ends with `return OUT*landMask` (note: the mask itself, not
`notLand`).  `Nx`/`Ny` stand for `np.size(field, 0)` / `np.size(field, 1)`. -/
def Laplacian2D {α : Type} [Field α] (Nx Ny : ℕ) (field landMask : ℕ → ℕ → α)
    (dx : ℕ → α) (dy : α) (i j : ℕ) : α :=
  OUTpre Nx Ny field landMask dx dy i j * landMask i j

/-- The 3×3 input of the spec's known discrete case: a unit spike at `(1,1)`,
also reused as the land mask that marks exactly the cell `(1,1)` as land. -/
def delta11 : ℕ → ℕ → ℚ := fun i j => if i = 1 ∧ j = 1 then 1 else 0

/-- The all-zero (all-water) land mask. -/
def zeroMask : ℕ → ℕ → ℚ := fun _ _ => 0

/-- The grid spacing `dx = [1,1,1]`. -/
def onesDx : ℕ → ℚ := fun _ => 1

/-- C1: the claim says a land cell always produces output exactly 0.  The code
instead ends with `return OUT*landMask`, so a land cell (mask = 1) keeps its
unmasked flux-divergence value: on the 3×3 spike field with land exactly at
the spike cell `(1,1)` and `dx = [1,1,1]`, `dy = 1`, the output at the land
cell is `-4`, not `0`. -/
theorem laplacian_land_cell_output_eval :
    Laplacian2D 3 3 delta11 delta11 onesDx 1 1 1 = -4 ∧ delta11 1 1 = 1 := by
  constructor <;>
    norm_num [Laplacian2D, OUTpre, fluxRightY, fluxLeftY, fluxRightX, fluxLeftX,
      notLand, delta11, zeroMask, onesDx]

/-- C2: on the spec's known discrete case (3×3 spike, landMask all zero,
`dx = [1,1,1]`, `dy = 1`) the code returns 0 at the spike cell and at its four
periodic neighbours, because the final line multiplies `OUT` by the all-zero
`landMask`; the accumulated array `OUT` before that multiplication does have
the claimed values `-4` at the spike and `+1` at each neighbour. -/
theorem laplacian_spike_case_eval :
    Laplacian2D 3 3 delta11 zeroMask onesDx 1 1 1 = 0 ∧
    Laplacian2D 3 3 delta11 zeroMask onesDx 1 0 1 = 0 ∧
    Laplacian2D 3 3 delta11 zeroMask onesDx 1 2 1 = 0 ∧
    Laplacian2D 3 3 delta11 zeroMask onesDx 1 1 0 = 0 ∧
    Laplacian2D 3 3 delta11 zeroMask onesDx 1 1 2 = 0 ∧
    OUTpre 3 3 delta11 zeroMask onesDx 1 1 1 = -4 ∧
    OUTpre 3 3 delta11 zeroMask onesDx 1 0 1 = 1 ∧
    OUTpre 3 3 delta11 zeroMask onesDx 1 2 1 = 1 ∧
    OUTpre 3 3 delta11 zeroMask onesDx 1 1 0 = 1 ∧
    OUTpre 3 3 delta11 zeroMask onesDx 1 1 2 = 1 := by
  refine ⟨?_, ?_, ?_, ?_, ?_, ?_, ?_, ?_, ?_, ?_⟩ <;>
    norm_num [Laplacian2D, OUTpre, fluxRightY, fluxLeftY, fluxRightX, fluxLeftX,
      notLand, delta11, zeroMask, onesDx]

/-- C3: the returned array is exactly zero at every cell whose `landMask`
entry is 0, because the final statement multiplies `OUT` by `landMask`; in
particular with an all-zero mask the returned array is identically zero. -/
theorem laplacian_zero_where_mask_zero (Nx Ny : ℕ) (field landMask : ℕ → ℕ → ℝ)
    (dx : ℕ → ℝ) (dy : ℝ) (i j : ℕ) (h : landMask i j = 0) :
    Laplacian2D Nx Ny field landMask dx dy i j = 0 := by
  unfold Laplacian2D
  rw [h, mul_zero]

/-- Witness for C3 at a concrete input. -/
theorem laplacian_zero_where_mask_zero_witness :
    Laplacian2D 1 1 (fun _ _ => (5 : ℝ)) (fun _ _ => 0) (fun _ => 1) 1 0 0 = 0 :=
  laplacian_zero_where_mask_zero 1 1 (fun _ _ => (5 : ℝ)) (fun _ _ => 0)
    (fun _ => 1) 1 0 0 rfl

/-- C4: with an all-zero land mask the sum of the returned array over all
`Nx × Ny` cells is exactly zero (the returned array is identically zero, since
the final line multiplies by the all-zero mask). -/
theorem laplacian_sum_zero_no_land (Nx Ny : ℕ) (field landMask : ℕ → ℕ → ℝ)
    (dx : ℕ → ℝ) (dy : ℝ) (h : ∀ i j, landMask i j = 0) :
    ∑ i ∈ Finset.range Nx, ∑ j ∈ Finset.range Ny,
      Laplacian2D Nx Ny field landMask dx dy i j = 0 := by
  refine Finset.sum_eq_zero fun i _ => Finset.sum_eq_zero fun j _ => ?_
  unfold Laplacian2D
  rw [h i j, mul_zero]

/-- Witness for C4 at a concrete input. -/
theorem laplacian_sum_zero_no_land_witness :
    ∑ i ∈ Finset.range 2, ∑ j ∈ Finset.range 2,
      Laplacian2D 2 2 (fun i j => (i : ℝ) + j) (fun _ _ => 0) (fun _ => 1) 1 i j = 0 :=
  laplacian_sum_zero_no_land 2 2 (fun i j => (i : ℝ) + j) (fun _ _ => 0)
    (fun _ => 1) 1 (fun _ _ => rfl)

/-- C5: at every in-range cell the fluxes computed by the slice assignments of
`Laplacian2D` agree with the single periodic (modular-index) formulas
`fluxRight[idx] = notLand[idx+1]·(field[idx+1] − field[idx])` and
`fluxLeft[idx] = notLand[idx−1]·(field[idx] − field[idx−1])` along each axis,
and the accumulated array is the sum of the two per-axis contributions
`(fluxRight − fluxLeft)/spacing²`, with spacing `dy` for the y-axis and
`dx[j]` for every cell with y-index `j` for the x-axis. -/
theorem laplacian_flux_form (Nx Ny : ℕ) (field landMask : ℕ → ℕ → ℝ)
    (dx : ℕ → ℝ) (dy : ℝ) (i j : ℕ) (hi : i < Nx) (hj : j < Ny) :
    fluxRightY Ny field landMask i j
      = notLand landMask i ((j + 1) % Ny) * (field i ((j + 1) % Ny) - field i j) ∧
    fluxLeftY Ny field landMask i j
      = notLand landMask i ((j + Ny - 1) % Ny) * (field i j - field i ((j + Ny - 1) % Ny)) ∧
    fluxRightX Nx field landMask i j
      = notLand landMask ((i + 1) % Nx) j * (field ((i + 1) % Nx) j - field i j) ∧
    fluxLeftX Nx field landMask i j
      = notLand landMask ((i + Nx - 1) % Nx) j * (field i j - field ((i + Nx - 1) % Nx) j) ∧
    OUTpre Nx Ny field landMask dx dy i j
      = (fluxRightY Ny field landMask i j - fluxLeftY Ny field landMask i j) / dy ^ 2
        + (fluxRightX Nx field landMask i j - fluxLeftX Nx field landMask i j) / dx j ^ 2 := by
  refine ⟨?_, ?_, ?_, ?_, ?_⟩
  · unfold fluxRightY
    by_cases h : j < Ny - 1
    · rw [if_pos h, Nat.mod_eq_of_lt (by omega)]
    · have hj' : j = Ny - 1 := by omega
      have hmod : (j + 1) % Ny = 0 := by
        subst hj'
        rw [Nat.sub_add_cancel (by omega), Nat.mod_self]
      rw [if_neg h, hmod, hj']
  · unfold fluxLeftY
    by_cases h : j = 0
    · have hmod : (j + Ny - 1) % Ny = Ny - 1 := by
        subst h
        rw [Nat.zero_add, Nat.mod_eq_of_lt (by omega)]
      rw [if_pos h, hmod, h]
    · have hmod : (j + Ny - 1) % Ny = j - 1 := by
        have h1 : j + Ny - 1 = (j - 1) + Ny := by omega
        rw [h1, Nat.add_mod_right, Nat.mod_eq_of_lt (by omega)]
      rw [if_neg h, hmod]
  · unfold fluxRightX
    by_cases h : i < Nx - 1
    · rw [if_pos h, Nat.mod_eq_of_lt (by omega)]
    · have hi' : i = Nx - 1 := by omega
      have hmod : (i + 1) % Nx = 0 := by
        subst hi'
        rw [Nat.sub_add_cancel (by omega), Nat.mod_self]
      rw [if_neg h, hmod, hi']
  · unfold fluxLeftX
    by_cases h : i = 0
    · have hmod : (i + Nx - 1) % Nx = Nx - 1 := by
        subst h
        rw [Nat.zero_add, Nat.mod_eq_of_lt (by omega)]
      rw [if_pos h, hmod, h]
    · have hmod : (i + Nx - 1) % Nx = i - 1 := by
        have h1 : i + Nx - 1 = (i - 1) + Nx := by omega
        rw [h1, Nat.add_mod_right, Nat.mod_eq_of_lt (by omega)]
      rw [if_neg h, hmod]
  · unfold OUTpre
    ring

/-- A small concrete field used as witness input. -/
def rampField : ℕ → ℕ → ℝ := fun i j => (i : ℝ) + j

/-- The all-water mask over `ℝ`, used as witness input. -/
def rZeroMask : ℕ → ℕ → ℝ := fun _ _ => 0

/-- The grid spacing `dx = [2,2,2]` over `ℝ`, used as witness input. -/
def rTwosDx : ℕ → ℝ := fun _ => 2

/-- Witness for C5 at a concrete input. -/
theorem laplacian_flux_form_witness :
    fluxRightY 3 rampField rZeroMask 1 1
      = notLand rZeroMask 1 ((1 + 1) % 3) * (rampField 1 ((1 + 1) % 3) - rampField 1 1) ∧
    fluxLeftY 3 rampField rZeroMask 1 1
      = notLand rZeroMask 1 ((1 + 3 - 1) % 3) * (rampField 1 1 - rampField 1 ((1 + 3 - 1) % 3)) ∧
    fluxRightX 3 rampField rZeroMask 1 1
      = notLand rZeroMask ((1 + 1) % 3) 1 * (rampField ((1 + 1) % 3) 1 - rampField 1 1) ∧
    fluxLeftX 3 rampField rZeroMask 1 1
      = notLand rZeroMask ((1 + 3 - 1) % 3) 1 * (rampField 1 1 - rampField ((1 + 3 - 1) % 3) 1) ∧
    OUTpre 3 3 rampField rZeroMask rTwosDx 1 1 1
      = (fluxRightY 3 rampField rZeroMask 1 1 - fluxLeftY 3 rampField rZeroMask 1 1) / 1 ^ 2
        + (fluxRightX 3 rampField rZeroMask 1 1 - fluxLeftX 3 rampField rZeroMask 1 1)
          / rTwosDx 1 ^ 2 :=
  laplacian_flux_form 3 3 rampField rZeroMask rTwosDx 1 1 1 (by decide) (by decide)

/-! ### Shape semantics of `Laplacian2D` (for the error-handling claim)

`Laplacian2D` contains no explicit shape validation; whether a call with
mismatched shapes raises is decided entirely by numpy's slicing, indexing and
broadcasting rules, which depend only on the array shapes.  The following
model tracks the shapes through the function body in statement order and
returns `none` at the first operation that raises (`ValueError` from a failed
broadcast, `IndexError` from an out-of-range index), and otherwise
`some shape` of the returned array.  Shapes: `field : (Nx, Ny)`,
`landMask : (p, q)`, `dx : (m,)`; `dy` is a scalar. -/

/-- Number of indices selected by the Python slice `lo:hi` (with
`0 ≤ lo ≤ hi`) from an axis of size `s`: both bounds are clipped to `s`. -/
def sliceLen (lo hi s : ℕ) : ℕ := min hi s - min lo s

/-- numpy broadcast of two axis lengths: they must be equal or one of them 1. -/
def bcDim (a b : ℕ) : Option ℕ :=
  if a = b then some a else if a = 1 then some b else if b = 1 then some a else none

/-- numpy broadcast of two 2-D shapes (axis by axis). -/
def bcShape (p q : ℕ × ℕ) : Option (ℕ × ℕ) :=
  match bcDim p.1 q.1, bcDim p.2 q.2 with
  | some r, some c => some (r, c)
  | _, _ => none

/-- A value of 1-D shape `r` can be assigned into a 1-D destination of size
`t`: numpy broadcasts the value to the destination shape, so each source axis
must equal the destination axis or be 1. -/
def canAssign1 (t r : ℕ) : Prop := r = t ∨ r = 1

/-- A value of 2-D shape `r` can be assigned into a 2-D destination `t`. -/
def canAssign2 (t r : ℕ × ℕ) : Prop := (r.1 = t.1 ∨ r.1 = 1) ∧ (r.2 = t.2 ∨ r.2 = 1)

instance (t r : ℕ) : Decidable (canAssign1 t r) := by unfold canAssign1; infer_instance

instance (t r : ℕ × ℕ) : Decidable (canAssign2 t r) := by unfold canAssign2; infer_instance

/-- Shape-level execution of `Laplacian2D` on `field : (Nx, Ny)`,
`landMask : (p, q)` and `dx : (m,)`, following the statements of the source in
order.  Each slice assignment checks that the right-hand sides broadcast
together and fit the destination slice; each integer index is bounds-checked;
`(1/dx**2)*(fluxRight - fluxLeft)` broadcasts the length-`m` row against the
`(Nx, Ny)` flux array; the final `OUT*landMask` broadcasts against `(p, q)`. -/
def laplacianShape (Nx Ny p q m : ℕ) : Option (ℕ × ℕ) :=
  -- fluxRight[:,0:Ny-1] = notLand[:,1:Ny]*(field[:,1:Ny] - field[:,0:Ny-1])
  match bcShape (p, sliceLen 1 Ny q) (Nx, sliceLen 1 Ny Ny) with
  | none => none
  | some r1 =>
  if ¬ canAssign2 (Nx, sliceLen 0 (Ny - 1) Ny) r1 then none else
  -- fluxRight[:,Ny-1] = notLand[:,0]*(field[:,0]-field[:,Ny-1])
  if ¬ (0 < q ∧ 0 < Ny) then none else
  match bcDim p Nx with
  | none => none
  | some r2 =>
  if ¬ canAssign1 Nx r2 then none else
  -- fluxLeft[:,1:Ny] = notLand[:,0:Ny-1]*(field[:,1:Ny] - field[:,0:Ny-1])
  match bcShape (p, sliceLen 0 (Ny - 1) q) (Nx, sliceLen 1 Ny Ny) with
  | none => none
  | some r3 =>
  if ¬ canAssign2 (Nx, sliceLen 1 Ny Ny) r3 then none else
  -- fluxLeft[:,0] = notLand[:,Ny-1]*(field[:,0]-field[:,Ny-1])
  if ¬ (Ny - 1 < q) then none else
  match bcDim p Nx with
  | none => none
  | some r4 =>
  if ¬ canAssign1 Nx r4 then none else
  -- fluxRight[0:Nx-1,:] = notLand[1:Nx,:]*(field[1:Nx,:] - field[0:Nx-1,:])
  match bcShape (sliceLen 1 Nx p, q) (sliceLen 1 Nx Nx, Ny) with
  | none => none
  | some r5 =>
  if ¬ canAssign2 (sliceLen 0 (Nx - 1) Nx, Ny) r5 then none else
  -- fluxRight[Nx-1,:] = notLand[0,:]*(field[0,:]-field[Nx-1,:])
  if ¬ (0 < p ∧ 0 < Nx) then none else
  match bcDim q Ny with
  | none => none
  | some r6 =>
  if ¬ canAssign1 Ny r6 then none else
  -- fluxLeft[1:Nx,:] = notLand[0:Nx-1,:]*(field[1:Nx,:] - field[0:Nx-1,:])
  match bcShape (sliceLen 0 (Nx - 1) p, q) (sliceLen 1 Nx Nx, Ny) with
  | none => none
  | some r7 =>
  if ¬ canAssign2 (sliceLen 1 Nx Nx, Ny) r7 then none else
  -- fluxLeft[0,:] = notLand[Nx-1,:]*(field[0,:]-field[Nx-1,:])
  if ¬ (Nx - 1 < p) then none else
  match bcDim q Ny with
  | none => none
  | some r8 =>
  if ¬ canAssign1 Ny r8 then none else
  -- OUT = OUT + (1/dx**2)*(fluxRight - fluxLeft): (m,) is promoted to (1, m)
  match bcShape (1, m) (Nx, Ny) with
  | none => none
  | some t =>
  match bcShape (Nx, Ny) t with
  | none => none
  | some u =>
  -- return OUT*landMask
  bcShape u (p, q)

/-- C9 counterexample: with `field` and `landMask` of shape 2×2 and a `dx` of
length 1 ≠ Ny = 2, the call does not signal any error — numpy broadcasts the
length-1 `dx` across the columns and a full result is returned. -/
theorem laplacian_shape_mismatch_no_error :
    laplacianShape 2 2 2 2 1 = some (2, 2) ∧ (1 : ℕ) ≠ 2 := by
  constructor <;> decide

/-- C9 amended: with matching `field`/`landMask` shapes, `Nx ≥ 1`, `Ny ≥ 2`, a
`dx` whose length is neither `Ny` nor 1 makes the call fail — but only at the
x-direction step `OUT + (1/dx**2)*(fluxRight - fluxLeft)`, after the whole
y-direction computation has already been performed; there is no up-front
validation. -/
theorem laplacian_bad_dx_raises (Nx Ny m : ℕ) (hNx : 1 ≤ Nx) (hNy : 2 ≤ Ny)
    (hm : m ≠ Ny) (hm1 : m ≠ 1) :
    laplacianShape Nx Ny Nx Ny m = none := by
  have h1 : sliceLen 1 Ny Ny = Ny - 1 := by
    unfold sliceLen; omega
  have h0 : sliceLen 0 (Ny - 1) Ny = Ny - 1 := by
    unfold sliceLen; omega
  have h1x : sliceLen 1 Nx Nx = Nx - 1 := by
    unfold sliceLen; omega
  have h0x : sliceLen 0 (Nx - 1) Nx = Nx - 1 := by
    unfold sliceLen; omega
  have hself : ∀ a : ℕ, bcDim a a = some a := fun a => by unfold bcDim; simp
  have hshape : ∀ s : ℕ × ℕ, bcShape s s = some s := fun s => by
    unfold bcShape; rw [hself, hself]
  have hbad : bcDim m Ny = none := by
    unfold bcDim
    rw [if_neg hm, if_neg hm1, if_neg (by omega)]
  have hlast : bcShape (1, m) (Nx, Ny) = none := by
    unfold bcShape
    rw [hbad]
    rcases bcDim 1 Nx with _ | r <;> rfl
  unfold laplacianShape
  rw [h1, h0, h1x, h0x]
  simp only [hshape, hself, hlast]
  split_ifs <;> rfl

/-- Witness for the amended C9 statement at a concrete input. -/
theorem laplacian_bad_dx_raises_witness :
    laplacianShape 2 2 2 2 3 = none :=
  laplacian_bad_dx_raises 2 2 3 (by decide) (by decide) (by decide) (by decide)

/-! ### Filter weight designer (`FilterWeights.ipynb`)

The notebook builds a target response
`F = interpolate.PchipInterpolator([0, 1/x, pi/x, pi], [1, 1, 0, 0])` and then
computes weights with `getWeights(n)`.  scipy's `PchipInterpolator` is the
Fritsch–Carlson shape-preserving piecewise cubic Hermite interpolant; its
node-derivative rules are embedded below exactly as scipy computes them for
four data points, and evaluation on each knot interval is the standard cubic
Hermite form.  `integrate.quad` and `np.linalg.solve` are modelled by the
exact integral and the exact solution of the linear system. -/

/-- Secant slope of the data over one knot interval (`mk = Δy/Δt`). -/
noncomputable def secant (ta tb ya yb : ℝ) : ℝ := (yb - ya) / (tb - ta)

/-- scipy's one-sided three-point edge derivative (`_edge_case`): the estimate
`d = ((2h0+h1)m0 - h0*m1)/(h0+h1)` is replaced by 0 when its sign differs from
the adjacent secant `m0`, or when `m0`, `m1` have different signs and
`|d| > 3|m0|`. -/
noncomputable def pchipEdgeD (h0 h1 m0 m1 : ℝ) : ℝ :=
  if Real.sign (((2 * h0 + h1) * m0 - h0 * m1) / (h0 + h1)) ≠ Real.sign m0
      ∨ (Real.sign m0 ≠ Real.sign m1
          ∧ 3 * |m0| < |((2 * h0 + h1) * m0 - h0 * m1) / (h0 + h1)|) then 0
  else ((2 * h0 + h1) * m0 - h0 * m1) / (h0 + h1)

/-- scipy's interior node derivative: 0 whenever the two adjacent secants
differ in sign or either vanishes, otherwise the Fritsch–Carlson weighted
harmonic mean `(w1+w2)/(w1/mL + w2/mR)` with `w1 = 2hR + hL`,
`w2 = hR + 2hL`. -/
noncomputable def pchipInteriorD (hL hR mL mR : ℝ) : ℝ :=
  if Real.sign mR ≠ Real.sign mL ∨ mR = 0 ∨ mL = 0 then 0
  else ((2 * hR + hL) + (hR + 2 * hL)) / ((2 * hR + hL) / mL + (hR + 2 * hL) / mR)

/-- Cubic Hermite basis combination at normalized coordinate `t` on an
interval of width `h`, with end values `ya`, `yb` and end derivatives `da`,
`db`. -/
noncomputable def hermiteBasis (ya yb da db h t : ℝ) : ℝ :=
  ya * (2 * t ^ 3 - 3 * t ^ 2 + 1) + h * da * (t ^ 3 - 2 * t ^ 2 + t)
    + yb * (-2 * t ^ 3 + 3 * t ^ 2) + h * db * (t ^ 3 - t ^ 2)

/-- Cubic Hermite evaluation on the interval `[ta, tb]`. -/
noncomputable def hermite (ta tb ya yb da db k : ℝ) : ℝ :=
  hermiteBasis ya yb da db (tb - ta) ((k - ta) / (tb - ta))

/-- The PCHIP interpolant through four data points
`(t0,y0), (t1,y1), (t2,y2), (t3,y3)`, evaluated at `k`: scipy's node
derivatives (edge rule at the ends, Fritsch–Carlson rule at the two interior
nodes) combined with piecewise cubic Hermite evaluation. -/
noncomputable def pchip4 (t0 t1 t2 t3 y0 y1 y2 y3 k : ℝ) : ℝ :=
  if k < t1 then
    hermite t0 t1 y0 y1
      (pchipEdgeD (t1 - t0) (t2 - t1) (secant t0 t1 y0 y1) (secant t1 t2 y1 y2))
      (pchipInteriorD (t1 - t0) (t2 - t1) (secant t0 t1 y0 y1) (secant t1 t2 y1 y2)) k
  else if k < t2 then
    hermite t1 t2 y1 y2
      (pchipInteriorD (t1 - t0) (t2 - t1) (secant t0 t1 y0 y1) (secant t1 t2 y1 y2))
      (pchipInteriorD (t2 - t1) (t3 - t2) (secant t1 t2 y1 y2) (secant t2 t3 y2 y3)) k
  else
    hermite t2 t3 y2 y3
      (pchipInteriorD (t2 - t1) (t3 - t2) (secant t1 t2 y1 y2) (secant t2 t3 y2 y3))
      (pchipEdgeD (t3 - t2) (t2 - t1) (secant t2 t3 y2 y3) (secant t1 t2 y1 y2)) k

/-- The target response
`F = interpolate.PchipInterpolator(np.array([0,1/x,np.pi/x,np.pi]), np.array([1,1,0,0]))`
of `FilterWeights.ipynb`, for coarsening factor `x`. -/
noncomputable def F (x k : ℝ) : ℝ :=
  pchip4 0 (1 / x) (Real.pi / x) Real.pi 1 1 0 0 k

/-- The matrix `A = 2*np.pi*(np.eye(n) + 2)` of `getWeights` (the scalar 2 is
added to every entry of the identity). -/
noncomputable def Amat (n : ℕ) : Matrix (Fin n) (Fin n) ℝ :=
  Matrix.of fun i j => 2 * Real.pi * ((if i = j then 1 else 0) + 2)

/-- `np.linalg.solve(A, b)`: the solution of `A·w = b` (numpy computes it by
LU factorization; exactly it is `A⁻¹·b`). -/
noncomputable def npSolve {n : ℕ} (A : Matrix (Fin n) (Fin n) ℝ) (b : Fin n → ℝ) :
    Fin n → ℝ := A⁻¹.mulVec b

/-- The integrals computed in the loop of `getWeights`:
`w[i] = integrate.quad(lambda k: 2*(F(k)-1)*(np.cos((i+1)*k)-1), 0, np.pi)[0]`
for `i in range(n)`, modelled as exact integrals. -/
noncomputable def bVec (x : ℝ) (n : ℕ) : Fin n → ℝ := fun i =>
  ∫ k in (0:ℝ)..Real.pi, 2 * (F x k - 1) * (Real.cos (((i : ℕ) + 1) * k) - 1)

/-- The tail weights after `w[1:] = np.linalg.solve(A, w[0:n])`: entry `j` of
the solution for `j < n`, and 0 (out of range) otherwise. -/
noncomputable def wTail (x : ℝ) (n : ℕ) : ℕ → ℝ := fun j =>
  if h : j < n then npSolve (Amat n) (bVec x n) ⟨j, h⟩ else 0

/-- `getWeights(n)` from `FilterWeights.ipynb` with the target response built
for coarsening factor `x`: the returned array has `w[0] = 1 - 2*np.sum(w[1:])`
and `w[j]` equal to entry `j-1` of the linear-system solution for
`1 ≤ j ≤ n`. -/
noncomputable def getWeights (x : ℝ) (n : ℕ) : ℕ → ℝ := fun j =>
  if j = 0 then 1 - 2 * ∑ i ∈ Finset.range n, wTail x n i
  else wTail x n (j - 1)

/-- Explicit inverse of `Amat n` (Sherman–Morrison form), used to reason about
`np.linalg.solve`. -/
noncomputable def AmatInv (n : ℕ) : Matrix (Fin n) (Fin n) ℝ :=
  Matrix.of fun i j => (1 / (2 * Real.pi)) * ((if i = j then 1 else 0) - 2 / (2 * n + 1))

lemma Amat_mul_inv (n : ℕ) : Amat n * AmatInv n = 1 := by
  have hc : (2 * (n:ℝ) + 1) ≠ 0 := by positivity
  ext i j
  rw [Matrix.mul_apply, Matrix.one_apply]
  have hterm : ∀ k : Fin n, Amat n i k * AmatInv n k j
      = (if i = k then (1:ℝ) else 0) * (if k = j then 1 else 0)
        - (2 / (2 * n + 1)) * (if i = k then 1 else 0)
        + 2 * (if k = j then 1 else 0) - 2 * (2 / (2 * n + 1)) := by
    intro k
    simp only [Amat, AmatInv, Matrix.of_apply]
    generalize (if i = k then (1:ℝ) else 0) = a
    generalize (if k = j then (1:ℝ) else 0) = b
    field_simp
    ring
  rw [Finset.sum_congr rfl fun k _ => hterm k]
  have h1 : ∑ k : Fin n, (if i = k then (1:ℝ) else 0) * (if k = j then 1 else 0)
      = if i = j then 1 else 0 := by
    have e : ∀ k : Fin n, (if i = k then (1:ℝ) else 0) * (if k = j then 1 else 0)
        = if i = k then (if k = j then (1:ℝ) else 0) else 0 := by
      intro k; split_ifs <;> ring
    rw [Finset.sum_congr rfl fun k _ => e k, Finset.sum_ite_eq]
    simp
  have h2 : ∑ k : Fin n, (if i = k then (1:ℝ) else 0) = 1 := by
    rw [Finset.sum_ite_eq]; simp
  have h3 : ∑ k : Fin n, (if k = j then (1:ℝ) else 0) = 1 := by
    rw [Finset.sum_ite_eq']; simp
  have hsplit : ∑ k : Fin n,
        ((if i = k then (1:ℝ) else 0) * (if k = j then 1 else 0)
          - (2 / (2 * n + 1)) * (if i = k then 1 else 0)
          + 2 * (if k = j then 1 else 0) - 2 * (2 / (2 * n + 1)))
      = (∑ k : Fin n, (if i = k then (1:ℝ) else 0) * (if k = j then 1 else 0))
        - (2 / (2 * n + 1)) * (∑ k : Fin n, (if i = k then (1:ℝ) else 0))
        + 2 * (∑ k : Fin n, (if k = j then (1:ℝ) else 0))
        - n * (2 * (2 / (2 * n + 1))) := by
    rw [Finset.sum_sub_distrib, Finset.sum_add_distrib, Finset.sum_sub_distrib,
      ← Finset.mul_sum, ← Finset.mul_sum, Finset.sum_const, Finset.card_univ,
      Fintype.card_fin, nsmul_eq_mul]
  rw [hsplit, h1, h2, h3]
  split_ifs <;> field_simp <;> ring

lemma Amat_transpose (n : ℕ) : Matrix.transpose (Amat n) = Amat n := by
  ext i j
  simp only [Matrix.transpose_apply, Amat, Matrix.of_apply]
  by_cases h : i = j
  · rw [if_pos h.symm, if_pos h]
  · rw [if_neg fun hh => h hh.symm, if_neg h]

lemma AmatInv_transpose (n : ℕ) : Matrix.transpose (AmatInv n) = AmatInv n := by
  ext i j
  simp only [Matrix.transpose_apply, AmatInv, Matrix.of_apply]
  by_cases h : i = j
  · rw [if_pos h.symm, if_pos h]
  · rw [if_neg fun hh => h hh.symm, if_neg h]

lemma inv_mul_Amat (n : ℕ) : AmatInv n * Amat n = 1 := by
  have h := congrArg Matrix.transpose (Amat_mul_inv n)
  rwa [Matrix.transpose_mul, Amat_transpose, AmatInv_transpose, Matrix.transpose_one] at h

lemma Amat_mulVec_npSolve (n : ℕ) (b : Fin n → ℝ) :
    (Amat n).mulVec (npSolve (Amat n) b) = b := by
  unfold npSolve
  rw [Matrix.inv_eq_right_inv (Amat_mul_inv n), Matrix.mulVec_mulVec, Amat_mul_inv n,
    Matrix.one_mulVec]

lemma npSolve_unique (n : ℕ) (b v : Fin n → ℝ) (h : (Amat n).mulVec v = b) :
    v = npSolve (Amat n) b := by
  unfold npSolve
  rw [Matrix.inv_eq_right_inv (Amat_mul_inv n), ← h, Matrix.mulVec_mulVec, inv_mul_Amat n,
    Matrix.one_mulVec]

/-- C6: the weight sequence returned by `getWeights` satisfies
`w[0] + 2·(w[1] + … + w[n]) = 1` exactly: the last line of `getWeights` sets
`w[0] = 1 - 2*np.sum(w[1:])`, so the full symmetric kernel of length `2n+1`
sums to 1. -/
theorem designFilter_unit_sum (x : ℝ) (n : ℕ) (hx : 1 < x) (hn : 1 ≤ n) :
    getWeights x n 0 + 2 * ∑ j ∈ Finset.Icc 1 n, getWeights x n j = 1 := by
  have h1 : ∑ j ∈ Finset.Icc 1 n, getWeights x n j = ∑ i ∈ Finset.range n, wTail x n i := by
    rw [← Nat.Ico_succ_right, Finset.sum_Ico_eq_sum_range]
    refine Finset.sum_congr (by norm_num) fun i _ => ?_
    unfold getWeights
    rw [if_neg (by omega)]
    congr 1
    omega
  rw [h1]
  unfold getWeights
  rw [if_pos rfl]
  ring

/-- Witness for C6 at `x = 2`, `n = 1`. -/
theorem designFilter_unit_sum_witness :
    getWeights 2 1 0 + 2 * ∑ j ∈ Finset.Icc 1 1, getWeights 2 1 j = 1 :=
  designFilter_unit_sum 2 1 one_lt_two le_rfl

/-- C7: `getWeights` returns `n+1` reals (indices `0..n` here) whose tail
`w[1..n]` is the unique solution of the linear system `A·w_tail = b` with
`A[i][j] = 2π·(δ_ij + 2)` and `b[i-1] = ∫₀^π 2(F(k)-1)(cos(i·k)-1) dk` for
offsets `i = 1..n`, and whose centre tap is `w[0] = 1 - 2·Σ w[1..n]`. -/
theorem designFilter_solves_system (x : ℝ) (n : ℕ) (hx : 1 < x) (hn : 1 ≤ n) :
    (Amat n).mulVec (fun i : Fin n => getWeights x n ((i : ℕ) + 1)) = bVec x n
    ∧ (∀ v : Fin n → ℝ, (Amat n).mulVec v = bVec x n →
        v = fun i : Fin n => getWeights x n ((i : ℕ) + 1))
    ∧ getWeights x n 0 = 1 - 2 * ∑ i : Fin n, getWeights x n ((i : ℕ) + 1) := by
  have htail : (fun i : Fin n => getWeights x n ((i : ℕ) + 1))
      = npSolve (Amat n) (bVec x n) := by
    funext i
    unfold getWeights wTail
    rw [if_neg (by omega), dif_pos (by omega : (i : ℕ) + 1 - 1 < n)]
    congr 1
  refine ⟨?_, ?_, ?_⟩
  · rw [htail]
    exact Amat_mulVec_npSolve n (bVec x n)
  · intro v hv
    rw [htail]
    exact npSolve_unique n (bVec x n) v hv
  · have hsum : ∑ i : Fin n, getWeights x n ((i : ℕ) + 1)
        = ∑ i ∈ Finset.range n, wTail x n i := by
      rw [← Fin.sum_univ_eq_sum_range fun i => wTail x n i]
      refine Finset.sum_congr rfl fun i _ => ?_
      unfold getWeights
      rw [if_neg (by omega)]
      congr 1
    rw [hsum]
    unfold getWeights
    rw [if_pos rfl]

/-- Witness for C7 at `x = 2`, `n = 1` (first conjunct, fully instantiated). -/
theorem designFilter_solves_system_witness :
    (Amat 1).mulVec (fun i : Fin 1 => getWeights 2 1 ((i : ℕ) + 1)) = bVec 2 1 :=
  (designFilter_solves_system 2 1 one_lt_two le_rfl).1

lemma pchipEdgeD_m0_zero (h0 h1 m1 : ℝ) (hh0 : 0 < h0) (hh1 : 0 < h1)
    (hm1 : m1 < 0) : pchipEdgeD h0 h1 0 m1 = 0 := by
  unfold pchipEdgeD
  rw [if_pos]
  left
  have heq : (2 * h0 + h1) * 0 - h0 * m1 = -(h0 * m1) := by ring
  have hnum : 0 < -(h0 * m1) := by nlinarith
  have hd : 0 < ((2 * h0 + h1) * 0 - h0 * m1) / (h0 + h1) := by
    rw [heq]
    exact div_pos hnum (by linarith)
  rw [Real.sign_of_pos hd, Real.sign_zero]
  norm_num

lemma pchipInteriorD_mL_zero (hL hR mR : ℝ) : pchipInteriorD hL hR 0 mR = 0 := by
  unfold pchipInteriorD
  rw [if_pos (Or.inr (Or.inr rfl))]

lemma pchipInteriorD_mR_zero (hL hR mL : ℝ) : pchipInteriorD hL hR mL 0 = 0 := by
  unfold pchipInteriorD
  rw [if_pos (Or.inr (Or.inl rfl))]

/-- The falling smoothstep cubic `2t³ - 3t² + 1` that `F` reduces to on its
middle knot interval. -/
noncomputable def smoothStep (t : ℝ) : ℝ := 2 * t ^ 3 - 3 * t ^ 2 + 1

/-- Closed form of the target response: because the data values are
`(1, 1, 0, 0)`, all four PCHIP node derivatives vanish, so `F` is 1 up to
`1/x`, a falling smoothstep on `[1/x, π/x]`, and 0 beyond `π/x`. -/
lemma F_eval (x : ℝ) (hx : 1 < x) (k : ℝ) :
    F x k = if k < 1 / x then 1
      else if k < Real.pi / x then smoothStep ((k - 1 / x) / (Real.pi / x - 1 / x))
      else 0 := by
  have hx0 : (0:ℝ) < x := by linarith
  have hpi : (1:ℝ) < Real.pi := by
    have := Real.pi_gt_three
    linarith
  have h0 : (0:ℝ) < 1 / x := by positivity
  have h01 : 1 / x < Real.pi / x := by
    rw [div_lt_div_iff hx0 hx0]
    nlinarith
  have hm0 : secant 0 (1 / x) 1 1 = 0 := by
    unfold secant
    simp
  have hm2 : secant (Real.pi / x) Real.pi 0 0 = 0 := by
    unfold secant
    simp
  have hm1 : secant (1 / x) (Real.pi / x) 1 0 < 0 := by
    unfold secant
    apply div_neg_of_neg_of_pos (by norm_num)
    linarith
  have hh0 : (0:ℝ) < 1 / x - 0 := by linarith
  have hh1 : (0:ℝ) < Real.pi / x - 1 / x := by linarith
  have hh2 : (0:ℝ) < Real.pi - Real.pi / x := by
    have : Real.pi / x < Real.pi := by
      rw [div_lt_iff hx0]
      nlinarith [Real.pi_pos]
    linarith
  unfold F pchip4
  rw [hm0, hm2]
  rw [pchipEdgeD_m0_zero _ _ _ hh0 hh1 hm1,
    pchipInteriorD_mL_zero, pchipInteriorD_mR_zero,
    pchipEdgeD_m0_zero _ _ _ hh2 hh1 hm1]
  split_ifs with hk1 hk2
  · unfold hermite hermiteBasis
    ring
  · unfold hermite hermiteBasis smoothStep
    ring
  · unfold hermite hermiteBasis
    ring

lemma smoothStep_le_one (t : ℝ) (h1 : t ≤ 1) : smoothStep t ≤ 1 := by
  unfold smoothStep
  nlinarith [sq_nonneg t]

lemma smoothStep_nonneg (t : ℝ) (h0 : 0 ≤ t) (h1 : t ≤ 1) : 0 ≤ smoothStep t := by
  unfold smoothStep
  nlinarith [sq_nonneg (1 - t)]

lemma smoothStep_antitone (s t : ℝ) (hs : 0 ≤ s) (hst : s ≤ t) (ht : t ≤ 1) :
    smoothStep t ≤ smoothStep s := by
  unfold smoothStep
  nlinarith [mul_nonneg hs (sub_nonneg.2 ht), mul_nonneg (sub_nonneg.2 hst) hs,
    mul_nonneg (sub_nonneg.2 hst) (sub_nonneg.2 ht),
    mul_nonneg (mul_nonneg hs (sub_nonneg.2 hst)) (sub_nonneg.2 ht)]

/-- C8: the target response `F` built by the notebook interpolates the control
points `(0,1)`, `(1/x,1)`, `(π/x,0)`, `(π,0)` — in particular `F(0)=1` and
`F(π)=0` — and is monotonically non-increasing on `[0, π]` (shape-preserving,
no overshoot). -/
theorem F_target_response (x : ℝ) (hx : 1 < x) :
    F x 0 = 1 ∧ F x (1 / x) = 1 ∧ F x (Real.pi / x) = 0 ∧ F x Real.pi = 0 ∧
    ∀ a b : ℝ, 0 ≤ a → a ≤ b → b ≤ Real.pi → F x b ≤ F x a := by
  have hx0 : (0:ℝ) < x := by linarith
  have hpi : (1:ℝ) < Real.pi := by
    have := Real.pi_gt_three
    linarith
  have h0 : (0:ℝ) < 1 / x := by positivity
  have h01 : 1 / x < Real.pi / x := by
    rw [div_lt_div_iff hx0 hx0]
    nlinarith
  have h1pi : Real.pi / x < Real.pi := by
    rw [div_lt_iff hx0]
    nlinarith [Real.pi_pos]
  have hden : (0:ℝ) < Real.pi / x - 1 / x := by linarith
  refine ⟨?_, ?_, ?_, ?_, ?_⟩
  · rw [F_eval x hx 0, if_pos h0]
  · rw [F_eval x hx (1 / x), if_neg (lt_irrefl _), if_pos h01]
    unfold smoothStep
    rw [sub_self, zero_div]
    norm_num
  · rw [F_eval x hx (Real.pi / x), if_neg (by linarith), if_neg (lt_irrefl _)]
  · rw [F_eval x hx Real.pi, if_neg (by linarith), if_neg (by linarith)]
  · intro a b ha hab hbpi
    rw [F_eval x hx a, F_eval x hx b]
    by_cases hb1 : b < 1 / x
    · rw [if_pos hb1, if_pos (lt_of_le_of_lt hab hb1)]
    · rw [if_neg hb1]
      by_cases hb2 : b < Real.pi / x
      · rw [if_pos hb2]
        by_cases ha1 : a < 1 / x
        · rw [if_pos ha1]
          apply smoothStep_le_one
          rw [div_le_one hden]
          linarith
        · rw [if_neg ha1, if_pos (lt_of_le_of_lt hab hb2)]
          apply smoothStep_antitone
          · apply div_nonneg _ (le_of_lt hden)
            linarith
          · exact (div_le_div_iff_of_pos_right hden).mpr (by linarith)
          · rw [div_le_one hden]
            linarith
      · rw [if_neg hb2]
        by_cases ha1 : a < 1 / x
        · rw [if_pos ha1]
          norm_num
        · rw [if_neg ha1]
          by_cases ha2 : a < Real.pi / x
          · rw [if_pos ha2]
            apply smoothStep_nonneg
            · apply div_nonneg _ (le_of_lt hden)
              linarith
            · rw [div_le_one hden]
              linarith
          · rw [if_neg ha2]

/-- Witness for C8 at `x = 2` (monotonicity applied at `a = 0`, `b = π`). -/
theorem F_target_response_witness : F 2 Real.pi ≤ F 2 0 :=
  (F_target_response 2 one_lt_two).2.2.2.2 0 Real.pi le_rfl Real.pi_nonneg le_rfl

/-- C10: both operations are pure functions of their arguments: two calls of
`getWeights` agree whenever the coarsening factor (which determines the global
`F`) and `n` agree, and two calls of `Laplacian2D` agree whenever all their
arguments agree; the embeddings have no other inputs. -/
theorem ops_pure_deterministic :
    (∀ (x₁ x₂ : ℝ) (n₁ n₂ : ℕ), x₁ = x₂ → n₁ = n₂ → getWeights x₁ n₁ = getWeights x₂ n₂)
    ∧ (∀ (Nx₁ Nx₂ Ny₁ Ny₂ : ℕ) (f₁ f₂ m₁ m₂ : ℕ → ℕ → ℝ) (dx₁ dx₂ : ℕ → ℝ) (dy₁ dy₂ : ℝ),
        Nx₁ = Nx₂ → Ny₁ = Ny₂ → f₁ = f₂ → m₁ = m₂ → dx₁ = dx₂ → dy₁ = dy₂ →
        Laplacian2D Nx₁ Ny₁ f₁ m₁ dx₁ dy₁ = Laplacian2D Nx₂ Ny₂ f₂ m₂ dx₂ dy₂) := by
  constructor
  · intro x₁ x₂ n₁ n₂ hx hn
    subst hx
    subst hn
    rfl
  · intro Nx₁ Nx₂ Ny₁ Ny₂ f₁ f₂ m₁ m₂ dx₁ dx₂ dy₁ dy₂ h1 h2 h3 h4 h5 h6
    subst h1
    subst h2
    subst h3
    subst h4
    subst h5
    subst h6
    rfl

/-- Witness for C10 at concrete equal inputs. -/
theorem ops_pure_deterministic_witness :
    getWeights 2 1 = getWeights 2 1 ∧
    Laplacian2D 3 3 rampField rZeroMask rTwosDx 1 = Laplacian2D 3 3 rampField rZeroMask rTwosDx 1 :=
  ⟨ops_pure_deterministic.1 2 2 1 1 rfl rfl,
    ops_pure_deterministic.2 3 3 3 3 rampField rampField rZeroMask rZeroMask
      rTwosDx rTwosDx 1 1 rfl rfl rfl rfl rfl rfl⟩
